import Mathlib

/-!
# Shallow embedding of `active_learning_pipeline.py`

This file embeds the three curation stages of the active-learning pipeline
(`stage_ingest`, `stage_select`, `stage_prep`) of the Ingenious Irrigation
repository as executable Lean definitions and proves properties about them.

Modelling conventions:
* Python floats are modelled as exact rationals (`ℚ`); the float literals in
  the source (`0.10`, `0.45`, ...) become the corresponding rationals.
* SHA1 digests are modelled as abstract strings that are an injective
  function of file content (SHA1 is treated as collision-free), so "two
  files with identical bytes" means "two files with equal `digest`" and
  "different bytes" means "different `digest`".
* The filesystem is modelled explicitly: the persistent hash index is an
  association list `digest → stored filename` (Python `dict` insertion
  appends a fresh key at the end), and a pool directory is an association
  list `filename → digest` in which `shutil.copy2` to an existing
  destination name overwrites the previous entry (`upsert`).
* Exceptions raised during per-image processing are modelled with
  `Except String`, the carried string standing for the exception's string
  representation (`repr(e)` in the source).
* Log-row reason strings are modelled structurally (constructor plus the
  numeric payload that the source interpolates into the f-string).
-/

namespace ActiveLearning

/-- One predicted object within an image, as returned by the detection
model: confidence, class id, and a normalized `xywhn` bounding box. -/
structure Detection where
  conf : ℚ
  cls : ℤ
  box : ℚ × ℚ × ℚ × ℚ
deriving DecidableEq, Repr

/-- The route assigned to an asset by `stage_select` (`rows[i]["route"]`). -/
inductive Route where
  | to_label
  | autolabeled
  | error
deriving DecidableEq, Repr

/-- The reason recorded in a log row, modelled structurally: the source
writes `"no_detections"`, `f"uncertain(max=..,mean=..,margin=..)"`,
`f"confident(max=..)"`, or `repr(e)` for a caught exception. -/
inductive Reason where
  | no_detections
  | uncertain (max_conf mean_conf margin : ℚ)
  | confident (max_conf : ℚ)
  | err (msg : String)
deriving DecidableEq, Repr

/-- One log row appended by `stage_select`
(`{"file": .., "route": .., "reason": ..}`). -/
structure Row where
  file : String
  route : Route
  reason : Reason
deriving DecidableEq, Repr

/-- `float(confs.max()) if len(confs) else 0.0`: the maximum of a list of
confidences, `0` for the empty list. -/
def pyMax : List ℚ → ℚ
  | [] => 0
  | c :: cs => cs.foldl max c

/-- `float(confs.mean()) if len(confs) else 0.0`: the arithmetic mean,
`0` for the empty list. -/
def pyMean (l : List ℚ) : ℚ :=
  if l = [] then 0 else l.sum / l.length

/-- `sorted(confs, reverse=True)`: the confidences sorted in descending
order. -/
def sortDesc (l : List ℚ) : List ℚ :=
  List.insertionSort (fun a b => b ≤ a) l

/-- `margin = sorted_confs[0] - (sorted_confs[1] if len(sorted_confs) > 1
else 0.0)` from `stage_select` (the `headD 0` on the left also matches the
source, which only reaches this line with a non-empty list). -/
def marginOf (confs : List ℚ) : ℚ :=
  (sortDesc confs).headD 0 - (sortDesc confs).tail.headD 0

/-- The per-image triage decision of `stage_select`: given the thresholds
and the detections returned by inference, produce the route and the logged
reason.  Mirrors the source: `det_count == 0` (including the defensive
`boxes is None` fallback, which the source routes identically) goes to
`to_label` with reason `"no_detections"`; otherwise the uncertainty
predicate `(max_conf <= conf_low) or (conf_low < max_conf <= conf_high) or
(margin < 0.10)` decides between `to_label` and `autolabeled`. -/
def selectImage (conf_low conf_high : ℚ) (dets : List Detection) :
    Route × Reason :=
  if dets.length = 0 then
    (Route.to_label, Reason.no_detections)
  else
    let confs := dets.map Detection.conf
    let max_conf := pyMax confs
    let mean_conf := pyMean confs
    let margin := marginOf confs
    if (max_conf ≤ conf_low) ∨ (conf_low < max_conf ∧ max_conf ≤ conf_high)
        ∨ (margin < 1/10) then
      (Route.to_label, Reason.uncertain max_conf mean_conf margin)
    else
      (Route.autolabeled, Reason.confident max_conf)

/-- The mutable state threaded through the `stage_select` loop: the four
counters of `stats`, the accumulated log `rows`, the contents of the
unlabeled pool (`img.unlink` removes an entry), and the destination pools
(`safe_copy` appends an entry). -/
structure SelectState where
  scanned : ℕ
  to_label : ℕ
  autolabeled : ℕ
  errors : ℕ
  rows : List Row
  remaining : List String
  toLabelPool : List String
  autoPool : List String
deriving DecidableEq, Repr

/-- One iteration of the `stage_select` loop over one image.  `infer`
models `model.predict` together with everything else inside the `try`
block that can raise: `.ok dets` is a normal inference result, `.error e`
a caught exception.  On success the image is copied to its destination
pool and unlinked from the unlabeled pool; on an exception only the error
counter and the log row change and the file is left in place. -/
def selectStep (conf_low conf_high : ℚ)
    (infer : String → Except String (List Detection))
    (st : SelectState) (img : String) : SelectState :=
  let st := { st with scanned := st.scanned + 1 }
  match infer img with
  | Except.error e =>
      { st with errors := st.errors + 1,
                rows := st.rows ++ [⟨img, Route.error, Reason.err e⟩] }
  | Except.ok dets =>
      let rr := selectImage conf_low conf_high dets
      if rr.1 = Route.to_label then
        { st with to_label := st.to_label + 1,
                  rows := st.rows ++ [⟨img, Route.to_label, rr.2⟩],
                  toLabelPool := st.toLabelPool ++ [img],
                  remaining := st.remaining.erase img }
      else
        { st with autolabeled := st.autolabeled + 1,
                  rows := st.rows ++ [⟨img, Route.autolabeled, rr.2⟩],
                  autoPool := st.autoPool ++ [img],
                  remaining := st.remaining.erase img }

/-- `stage_select`: fold the per-image step over the (sorted, filtered)
list of unlabeled images, starting from zeroed counters and the full
unlabeled pool. -/
def stage_select (conf_low conf_high : ℚ)
    (infer : String → Except String (List Detection))
    (unlabeled : List String) : SelectState :=
  unlabeled.foldl (selectStep conf_low conf_high infer)
    ⟨0, 0, 0, 0, [], unlabeled, [], []⟩

/-- `true` iff the inference result is a normal (non-raising) one. -/
def inferOk (r : Except String (List Detection)) : Bool :=
  match r with
  | Except.ok _ => true
  | Except.error _ => false

/-- `true` iff a log row records the `error` route. -/
def isErrorRow (r : Row) : Bool :=
  match r.route with
  | Route.error => true
  | _ => false

/-- A concrete inference function used to exercise the error-isolation
theorem on a three-image batch: raises (with text `"boom"`) on `b.jpg`,
returns one fully-confident detection on every other image. -/
def inferW (s : String) : Except String (List Detection) :=
  if s = "b.jpg" then Except.error "boom"
  else Except.ok [⟨1, 0, (0, 0, 0, 0)⟩]

/-- One candidate file under the incoming-images directory: its filename
and its content digest (`sha1_of_file`). -/
structure IncomingFile where
  name : String
  digest : String
deriving DecidableEq, Repr

/-- Association-list lookup by key (first match wins), modelling both
`h in seen_hashes` / `seen_hashes[h]` on the JSON hash index and file
lookup by name in a pool directory. -/
def alLookup (k : String) : List (String × String) → Option String
  | [] => none
  | (k', v) :: t => if k' = k then some v else alLookup k t

/-- Write `v` under key `k`, overwriting an existing entry with that key
(the behaviour of `shutil.copy2` when the destination filename already
exists) and appending otherwise. -/
def upsert (k v : String) : List (String × String) → List (String × String)
  | [] => [(k, v)]
  | (k', v') :: t => if k' = k then (k, v) :: t else (k', v') :: upsert k v t

/-- The state threaded through the `stage_ingest` loop: the hash index
(`seen_hashes`, digest → stored filename), the unlabeled pool directory
(filename → digest of the file stored under that name), and the
`new_paths` accumulator. -/
structure IngestState where
  index : List (String × String)
  pool : List (String × String)
  newPaths : List String
deriving DecidableEq, Repr

/-- One iteration of the `stage_ingest` loop over one incoming image:
`h = sha1_of_file(ip); if h in seen_hashes: continue`; otherwise copy to
`UNLABELED_DIR / ip.name` (overwriting any file already stored under that
name), record `seen_hashes[h] = dest.name`, and append to `new_paths`. -/
def ingestStep (st : IngestState) (f : IncomingFile) : IngestState :=
  if (alLookup f.digest st.index).isSome then st
  else
    { index := st.index ++ [(f.digest, f.name)],
      pool := upsert f.name f.digest st.pool,
      newPaths := st.newPaths ++ [f.name] }

/-- `stage_ingest`: load the persisted index, fold over the sorted,
extension-filtered incoming images, and return the final state (the index
written back at the end, the resulting unlabeled pool, and `new_paths`).
`files` is the directory listing already sorted by name and filtered to
`IMAGE_EXTS`, as the source's `sorted(INCOMING_IMG.glob("*"))` loop
produces it. -/
def stage_ingest (index₀ pool₀ : List (String × String))
    (files : List IncomingFile) : IngestState :=
  files.foldl ingestStep ⟨index₀, pool₀, []⟩

/-- The number of hash-index entries recorded under digest `c`. -/
def countKey (c : String) (l : List (String × String)) : ℕ :=
  (l.filter (fun e => decide (e.1 = c))).length

/-- The number of pool entries whose stored content has digest `c`:
the number of physical copies of that content in the directory. -/
def countVal (c : String) (l : List (String × String)) : ℕ :=
  (l.filter (fun e => decide (e.2 = c))).length

/-- One file found in a labeled/autolabeled pool during `stage_prep`:
its name, whether its suffix is in `IMAGE_EXTS`, and whether the sibling
`.txt` annotation file exists. -/
structure PrepItem where
  name : String
  isImage : Bool
  hasTxt : Bool
deriving DecidableEq, Repr

/-- The gather loop of `stage_prep`: keep only files whose suffix is an
image extension and whose matching `.txt` annotation exists. -/
def gather (d : List PrepItem) : List PrepItem :=
  d.filter (fun i => i.isImage && i.hasTxt)

/-- Python `int()` applied to a rational: truncation toward zero. -/
def pyInt (q : ℚ) : ℤ :=
  if q < 0 then -(Int.floor (-q)) else Int.floor q

/-- The result of `stage_prep`: the items written to each split and the
`(train_count, val_count)` pair the function returns. -/
structure PrepResult where
  valItems : List PrepItem
  trainItems : List PrepItem
  train_count : ℤ
  val_count : ℤ
deriving DecidableEq, Repr

/-- `stage_prep`: gather the (image, annotation) pairs from the labeled
and autolabeled pools, shuffle them (`random.shuffle` is modelled by the
function parameter `shuffle`, a permutation supplied by the caller),
compute `n_val = max(1, int(n_total * val_split)) if n_total else 0`,
send the first `n_val` shuffled items to `val` and the rest to `train`,
and return `(max(0, n_total - n_val), n_val)`. -/
def stage_prep (labeled autolabeled : List PrepItem)
    (shuffle : List PrepItem → List PrepItem) (val_split : ℚ) : PrepResult :=
  let sources := gather labeled ++ gather autolabeled
  let shuffled := shuffle sources
  let n_total : ℕ := shuffled.length
  let n_val : ℤ :=
    if n_total ≠ 0 then max 1 (pyInt ((n_total : ℚ) * val_split)) else 0
  { valItems := shuffled.take n_val.toNat,
    trainItems := shuffled.drop n_val.toNat,
    train_count := max 0 ((n_total : ℤ) - n_val),
    val_count := n_val }

/-! ## Helper lemmas about `pyMax` and `sortDesc` -/

theorem le_foldl_max (cs : List ℚ) : ∀ c : ℚ, c ≤ cs.foldl max c := by
  induction cs with
  | nil => intro c; exact le_refl c
  | cons a t ih =>
      intro c
      calc c ≤ max c a := le_max_left c a
        _ ≤ t.foldl max (max c a) := ih (max c a)

theorem mem_le_foldl_max (cs : List ℚ) :
    ∀ (c x : ℚ), x ∈ cs → x ≤ cs.foldl max c := by
  induction cs with
  | nil => intro c x hx; cases hx
  | cons a t ih =>
      intro c x hx
      rcases List.mem_cons.mp hx with h | h
      · subst h
        calc x ≤ max c x := le_max_right c x
          _ ≤ t.foldl max (max c x) := le_foldl_max t (max c x)
      · exact ih (max c a) x h

theorem foldl_max_mem (cs : List ℚ) :
    ∀ c : ℚ, cs.foldl max c = c ∨ cs.foldl max c ∈ cs := by
  induction cs with
  | nil => intro c; exact Or.inl rfl
  | cons a t ih =>
      intro c
      rcases ih (max c a) with h | h
      · rcases le_total c a with hca | hac
        · right
          rw [List.foldl_cons, h, max_eq_right hca]
          exact List.mem_cons_self a t
        · left
          rw [List.foldl_cons, h, max_eq_left hac]
      · right
        exact List.mem_cons_of_mem a h

theorem le_pyMax (l : List ℚ) (x : ℚ) (hx : x ∈ l) : x ≤ pyMax l := by
  cases l with
  | nil => cases hx
  | cons c cs =>
      rcases List.mem_cons.mp hx with h | h
      · subst h; exact le_foldl_max cs x
      · exact mem_le_foldl_max cs c x h

theorem pyMax_mem (l : List ℚ) (hl : l ≠ []) : pyMax l ∈ l := by
  cases l with
  | nil => exact absurd rfl hl
  | cons c cs =>
      rcases foldl_max_mem cs c with h | h
      · rw [pyMax, h]; exact List.mem_cons_self c cs
      · exact List.mem_cons_of_mem c h

theorem pyMax_eq_of (l : List ℚ) (a : ℚ) (ha : a ∈ l)
    (hmax : ∀ x ∈ l, x ≤ a) : pyMax l = a :=
  le_antisymm (hmax (pyMax l) (pyMax_mem l (List.ne_nil_of_mem ha)))
    (le_pyMax l a ha)

instance : IsTotal ℚ (fun a b => b ≤ a) := ⟨fun a b => le_total b a⟩

instance : IsTrans ℚ (fun a b => b ≤ a) :=
  ⟨fun _ _ _ h1 h2 => le_trans h2 h1⟩

theorem sortDesc_perm (l : List ℚ) : List.Perm (sortDesc l) l :=
  List.perm_insertionSort _ l

theorem sortDesc_sorted (l : List ℚ) :
    List.Sorted (fun a b => b ≤ a) (sortDesc l) :=
  List.sorted_insertionSort _ l

/-! ## Claim theorems: triage margin (C1) -/

/-- C1, counterexample.  The claim says that with exactly one detection the
computed margin is `0`, forcing the margin clause `margin < 0.10` to hold.
On the code, a single detection of confidence `1/2` yields
`margin = sorted_confs[0] - 0.0 = 1/2`, the margin clause is false, and the
image routes `autolabeled` (with `conf_low = 0.15`, `conf_high = 0.45`)
where the claim would force `to_label`. -/
theorem c1_counterexample :
    marginOf [1/2] = 1/2 ∧ marginOf [1/2] ≠ 0 ∧ ¬ (marginOf [1/2] < 1/10) ∧
    (selectImage (3/20) (9/20) [⟨1/2, 0, (0, 0, 0, 0)⟩]).1 =
      Route.autolabeled := by
  refine ⟨?_, ?_, ?_, ?_⟩ <;>
    norm_num [marginOf, sortDesc, selectImage, pyMax, pyMean,
      List.insertionSort, List.orderedInsert]

/-- C1, amended.  In `stage_select`, for an image with exactly one
detection the computed margin equals that detection's confidence (not
`0`); for two or more detections the margin is the difference between the
two highest confidences: the confidences can be reordered as
`a :: b :: t` where `a` is the maximum, `b` dominates the rest, and
`margin = a - b`. -/
theorem c1_margin_amended (c : ℚ) (l : List ℚ) (h2 : 2 ≤ l.length) :
    marginOf [c] = c ∧
    ∃ a b t, List.Perm l (a :: b :: t) ∧ a = pyMax l ∧ (∀ x ∈ l, x ≤ a) ∧
      (∀ x ∈ b :: t, x ≤ b) ∧ marginOf l = a - b := by
  constructor
  · norm_num [marginOf, sortDesc, List.insertionSort, List.orderedInsert]
  · have hp : List.Perm (sortDesc l) l := sortDesc_perm l
    have hs := sortDesc_sorted l
    have hlen : 2 ≤ (sortDesc l).length := by
      rw [hp.length_eq]; exact h2
    obtain ⟨a, b, t, hst⟩ : ∃ a b t, sortDesc l = a :: b :: t := by
      match hsd : sortDesc l with
      | [] => rw [hsd] at hlen; simp at hlen
      | [x] => rw [hsd] at hlen; simp at hlen
      | x :: y :: t => exact ⟨x, y, t, rfl⟩
    rw [hst] at hp hs
    have hmax : ∀ x ∈ l, x ≤ a := by
      intro x hx
      have hx' : x ∈ a :: b :: t := hp.mem_iff.mpr hx
      rcases List.mem_cons.mp hx' with h | h
      · subst h; exact le_refl x
      · exact List.rel_of_sorted_cons hs x h
    refine ⟨a, b, t, hp.symm, ?_, hmax, ?_, ?_⟩
    · exact (pyMax_eq_of l a (hp.mem_iff.mp (List.mem_cons_self a _)) hmax).symm
    · intro x hx
      rcases List.mem_cons.mp hx with h | h
      · subst h; exact le_refl x
      · exact List.rel_of_sorted_cons (List.Sorted.of_cons hs) x h
    · rw [marginOf, hst]
      simp

/-- C1, witness for the amended theorem at `c = 1/2`,
`l = [4/5, 3/4]`. -/
theorem c1_margin_amended_witness :
    marginOf [1/2] = 1/2 ∧
    ∃ a b t, List.Perm [(4:ℚ)/5, 3/4] (a :: b :: t) ∧ a = pyMax [(4:ℚ)/5, 3/4] ∧
      (∀ x ∈ [(4:ℚ)/5, 3/4], x ≤ a) ∧ (∀ x ∈ b :: t, x ≤ b) ∧
      marginOf [(4:ℚ)/5, 3/4] = a - b :=
  c1_margin_amended (1/2) [4/5, 3/4] (by norm_num)

/-! ## Claim theorems: triage boundary cases (C6) and no detections (C8) -/

/-- C6.  With `conf_low = 0.15` and `conf_high = 0.45`: a sole detection
of confidence exactly `0.45` routes `to_label`; a sole detection of
confidence `0.451` (margin `0.451 ≥ 0.10`) routes `autolabeled`; two
detections of confidences `0.80` and `0.75` (margin `0.05 < 0.10`) route
`to_label` even though `max_conf` exceeds `conf_high`. -/
theorem c6_triage_boundaries :
    (selectImage (3/20) (9/20) [⟨9/20, 0, (0, 0, 0, 0)⟩]).1 =
      Route.to_label ∧
    (selectImage (3/20) (9/20) [⟨451/1000, 0, (0, 0, 0, 0)⟩]).1 =
      Route.autolabeled ∧
    (selectImage (3/20) (9/20)
      [⟨4/5, 0, (0, 0, 0, 0)⟩, ⟨3/4, 1, (0, 0, 0, 0)⟩]).1 =
      Route.to_label := by
  refine ⟨?_, ?_, ?_⟩ <;>
    norm_num [selectImage, marginOf, sortDesc, pyMax, pyMean,
      List.insertionSort, List.orderedInsert]

/-- C8.  An image whose inference returns zero detections routes
`to_label` with reason `no_detections`, whatever the thresholds are; in
the `stage_select` loop such an image is copied to the to-label pool,
counted under `to_label`, and removed from the unlabeled pool. -/
theorem c8_no_detections (conf_low conf_high : ℚ)
    (infer : String → Except String (List Detection)) (st : SelectState)
    (img : String) (h : infer img = Except.ok []) :
    selectImage conf_low conf_high [] =
      (Route.to_label, Reason.no_detections) ∧
    selectStep conf_low conf_high infer st img =
      { st with scanned := st.scanned + 1, to_label := st.to_label + 1,
                rows := st.rows ++ [⟨img, Route.to_label,
                  Reason.no_detections⟩],
                toLabelPool := st.toLabelPool ++ [img],
                remaining := st.remaining.erase img } := by
  constructor
  · rfl
  · simp [selectStep, h, selectImage]

/-- C8, witness: thresholds `0.15`/`0.45`, an inference function returning
zero detections everywhere, the empty initial state, image `"a.jpg"`. -/
theorem c8_no_detections_witness :
    selectImage (3/20) (9/20) [] =
      (Route.to_label, Reason.no_detections) ∧
    selectStep (3/20) (9/20) (fun _ => Except.ok [])
      ⟨0, 0, 0, 0, [], ["a.jpg"], [], []⟩ "a.jpg" =
      { scanned := 1, to_label := 1, autolabeled := 0, errors := 0,
        rows := [⟨"a.jpg", Route.to_label, Reason.no_detections⟩],
        remaining := List.erase ["a.jpg"] "a.jpg",
        toLabelPool := ["a.jpg"], autoPool := [] } :=
  c8_no_detections (3/20) (9/20) (fun _ => Except.ok [])
    ⟨0, 0, 0, 0, [], ["a.jpg"], [], []⟩ "a.jpg" rfl

/-! ## Claim theorems: collapse of the uncertainty predicate (C7) -/

/-- C7.  For thresholds with `conf_low < conf_high`, the three-clause
uncertainty predicate of the source equals the collapsed predicate
`max_conf ≤ conf_high ∨ margin < 0.10`; and on every non-empty detection
list, `selectImage` routes `to_label` exactly when the collapsed predicate
holds of the computed `max_conf` and `margin`. -/
theorem c7_uncertainty_collapse (conf_low conf_high m mar : ℚ)
    (h : conf_low < conf_high) :
    ((m ≤ conf_low ∨ (conf_low < m ∧ m ≤ conf_high) ∨ mar < 1/10) ↔
      (m ≤ conf_high ∨ mar < 1/10)) ∧
    (∀ dets : List Detection, dets ≠ [] →
      ((selectImage conf_low conf_high dets).1 = Route.to_label ↔
        (pyMax (dets.map Detection.conf) ≤ conf_high ∨
          marginOf (dets.map Detection.conf) < 1/10))) := by
  have collapse : ∀ x y : ℚ,
      ((x ≤ conf_low ∨ (conf_low < x ∧ x ≤ conf_high) ∨ y < 1/10) ↔
        (x ≤ conf_high ∨ y < 1/10)) := by
    intro x y
    constructor
    · rintro (h1 | ⟨_, h2b⟩ | h3)
      · exact Or.inl (le_trans h1 (le_of_lt h))
      · exact Or.inl h2b
      · exact Or.inr h3
    · rintro (h1 | h2)
      · rcases le_or_lt x conf_low with hc | hc
        · exact Or.inl hc
        · exact Or.inr (Or.inl ⟨hc, h1⟩)
      · exact Or.inr (Or.inr h2)
  refine ⟨collapse m mar, ?_⟩
  intro dets hne
  have hlen : ¬ dets.length = 0 := by
    simpa using hne
  rw [selectImage, if_neg hlen]
  by_cases hu : pyMax (dets.map Detection.conf) ≤ conf_low ∨
      (conf_low < pyMax (dets.map Detection.conf) ∧
        pyMax (dets.map Detection.conf) ≤ conf_high) ∨
      marginOf (dets.map Detection.conf) < 1/10
  · simp only [if_pos hu]
    exact ⟨fun _ => (collapse _ _).mp hu, fun _ => trivial⟩
  · simp only [if_neg hu]
    constructor
    · intro hcontra
      exact absurd hcontra (by simp)
    · intro hcoll
      exact absurd ((collapse _ _).mpr hcoll) hu

/-- C7, witness at `conf_low = 0.15`, `conf_high = 0.45`,
`m = mar = 1/2`. -/
theorem c7_uncertainty_collapse_witness :
    (((1:ℚ)/2 ≤ 3/20 ∨ ((3:ℚ)/20 < 1/2 ∧ (1:ℚ)/2 ≤ 9/20) ∨ (1:ℚ)/2 < 1/10) ↔
      ((1:ℚ)/2 ≤ 9/20 ∨ (1:ℚ)/2 < 1/10)) ∧
    (∀ dets : List Detection, dets ≠ [] →
      ((selectImage (3/20) (9/20) dets).1 = Route.to_label ↔
        (pyMax (dets.map Detection.conf) ≤ 9/20 ∨
          marginOf (dets.map Detection.conf) < 1/10))) :=
  c7_uncertainty_collapse (3/20) (9/20) (1/2) (1/2) (by norm_num)

/-! ## Helper lemmas about the ingest state -/

theorem alLookup_none_countKey (c : String) (l : List (String × String))
    (h : alLookup c l = none) : countKey c l = 0 := by
  induction l with
  | nil => rfl
  | cons e t ih =>
      obtain ⟨k, v⟩ := e
      rw [alLookup] at h
      by_cases hk : k = c
      · rw [if_pos hk] at h; cases h
      · rw [if_neg hk] at h
        rw [countKey, List.filter_cons]
        simp only [hk, decide_eq_true_eq, if_false]
        simpa [countKey, hk] using ih h

theorem countKey_append (c : String) (l m : List (String × String)) :
    countKey c (l ++ m) = countKey c l + countKey c m := by
  simp [countKey, List.filter_append]

theorem countVal_upsert (c k v : String) (l : List (String × String)) :
    countVal c (upsert k v l) ≤
      countVal c l + (if v = c then 1 else 0) := by
  induction l with
  | nil =>
      by_cases hv : v = c <;>
        simp [upsert, countVal, List.filter_cons, hv]
  | cons e t ih =>
      obtain ⟨k', v'⟩ := e
      rw [upsert]
      by_cases hk : k' = k
      · rw [if_pos hk]
        by_cases hv : v = c <;> by_cases hv' : v' = c <;>
          · simp [countVal, List.filter_cons, hv, hv']
            try omega
      · rw [if_neg hk]
        by_cases hv' : v' = c <;>
          · simp only [countVal, List.filter_cons, hv', decide_eq_true_eq] at *
            simp only [hv', if_true, if_false, List.length_cons] at *
            omega

/-- The per-digest deduplication invariant maintained by `ingestStep`:
at most one index entry and at most one pool copy for digest `c`, and
none of either while `c` is absent from the index. -/
def DedupInv (c : String) (st : IngestState) : Prop :=
  countKey c st.index ≤ 1 ∧ countVal c st.pool ≤ 1 ∧
    (countKey c st.index = 0 → countVal c st.pool = 0) ∧
    (alLookup c st.index = none → countKey c st.index = 0)

theorem alLookup_append_left (d v : String) (l m : List (String × String))
    (h : alLookup d l = some v) : alLookup d (l ++ m) = some v := by
  induction l with
  | nil => cases h
  | cons e t ih =>
      obtain ⟨k, w⟩ := e
      rw [List.cons_append]
      rw [alLookup] at h ⊢
      by_cases hk : k = d
      · rwa [if_pos hk] at h ⊢
      · rw [if_neg hk] at h ⊢
        exact ih h

theorem alLookup_append_right (d : String) (l m : List (String × String))
    (h : alLookup d l = none) : alLookup d (l ++ m) = alLookup d m := by
  induction l with
  | nil => rfl
  | cons e t ih =>
      obtain ⟨k, w⟩ := e
      rw [alLookup] at h
      by_cases hk : k = d
      · rw [if_pos hk] at h; cases h
      · rw [if_neg hk] at h
        rw [List.cons_append, alLookup, if_neg hk]
        exact ih h

theorem dedupInv_step (c : String) (st : IngestState) (f : IncomingFile)
    (h : DedupInv c st) : DedupInv c (ingestStep st f) := by
  obtain ⟨h1, h2, h3, h4⟩ := h
  rw [ingestStep]
  by_cases hskip : (alLookup f.digest st.index).isSome
  · rw [if_pos hskip]; exact ⟨h1, h2, h3, h4⟩
  · rw [if_neg hskip]
    have hnone : alLookup f.digest st.index = none := by
      cases hd : alLookup f.digest st.index with
      | none => rfl
      | some v => rw [hd] at hskip; simp at hskip
    by_cases hc : f.digest = c
    · subst hc
      have hk0 : countKey f.digest st.index = 0 := h4 hnone
      have hv0 : countVal f.digest st.pool = 0 := h3 hk0
      refine ⟨?_, ?_, ?_, ?_⟩
      · rw [countKey_append, hk0]
        simp [countKey, List.filter_cons]
      · calc countVal f.digest (upsert f.name f.digest st.pool) ≤
              countVal f.digest st.pool + (if f.digest = f.digest then 1 else 0) :=
                countVal_upsert _ _ _ _
          _ ≤ 1 := by rw [hv0, if_pos rfl]
      · intro hk
        rw [countKey_append] at hk
        simp [countKey, List.filter_cons] at hk
      · intro ha
        have ha' : alLookup f.digest (st.index ++ [(f.digest, f.name)]) =
            alLookup f.digest [(f.digest, f.name)] :=
          alLookup_append_right _ _ _ hnone
        have ha'' : alLookup f.digest
            (st.index ++ [(f.digest, f.name)]) = some f.name := by
          rw [ha']; simp [alLookup]
        rw [ha''] at ha
        cases ha
    · have hkeq : countKey c (st.index ++ [(f.digest, f.name)]) =
          countKey c st.index := by
        rw [countKey_append]
        simp [countKey, List.filter_cons, hc]
      have hveq : countVal c (upsert f.name f.digest st.pool) ≤
          countVal c st.pool := by
        calc countVal c (upsert f.name f.digest st.pool) ≤
              countVal c st.pool + (if f.digest = c then 1 else 0) :=
                countVal_upsert _ _ _ _
          _ = countVal c st.pool := by rw [if_neg hc, add_zero]
      refine ⟨?_, le_trans hveq h2, ?_, ?_⟩
      · rw [hkeq]; exact h1
      · intro hk
        rw [hkeq] at hk
        have hz := h3 hk
        have hres : countVal c (upsert f.name f.digest st.pool) = 0 := by
          omega
        exact hres
      · intro hl
        have hl' : alLookup c st.index = none := by
          cases hd : alLookup c st.index with
          | none => rfl
          | some v =>
              have := alLookup_append_left c v st.index
                [(f.digest, f.name)] hd
              rw [hl] at this; cases this
        rw [hkeq]; exact h4 hl'

theorem dedupInv_fold (c : String) :
    ∀ (files : List IncomingFile) (st : IngestState),
      DedupInv c st → DedupInv c (files.foldl ingestStep st) := by
  intro files
  induction files with
  | nil => intro st h; exact h
  | cons f fs ih =>
      intro st h
      exact ih (ingestStep st f) (dedupInv_step c st f h)

/-! ## Claim theorems: ingest deduplication (C2) -/

/-- C2, counterexample.  The claim says two incoming files with the same
name but different bytes are both preserved in the unlabeled pool.  On
the code, ingesting `a.jpg` with digest `d1` and then (in a later run)
`a.jpg` with digest `d2` overwrites the first copy: the final pool holds
a single file `a.jpg` with digest `d2`, and no file with digest `d1`
remains. -/
theorem c2_counterexample :
    (stage_ingest
      (stage_ingest [] [] [⟨"a.jpg", "d1"⟩]).index
      (stage_ingest [] [] [⟨"a.jpg", "d1"⟩]).pool
      [⟨"a.jpg", "d2"⟩]).pool = [("a.jpg", "d2")] ∧
    countVal "d1"
      (stage_ingest
        (stage_ingest [] [] [⟨"a.jpg", "d1"⟩]).index
        (stage_ingest [] [] [⟨"a.jpg", "d1"⟩]).pool
        [⟨"a.jpg", "d2"⟩]).pool = 0 := by
  constructor <;> decide

/-- C2, amended.  Dedup by content holds: starting from an empty index
and pool, after ingesting any list of files the unlabeled pool holds at
most one copy of any given content digest and the hash index at most one
entry for it (so two identical-bytes files under different names are
deduplicated).  But two same-named files with different bytes are NOT
both preserved: the second ingest overwrites the first copy in the pool,
leaving only the later content under that name (both digests do remain
in the index). -/
theorem c2_dedup_amended (files : List IncomingFile) (c : String)
    (name d1 d2 : String) (hd : d1 ≠ d2) :
    (countKey c (stage_ingest [] [] files).index ≤ 1 ∧
      countVal c (stage_ingest [] [] files).pool ≤ 1) ∧
    (stage_ingest
        (stage_ingest [] [] [⟨name, d1⟩]).index
        (stage_ingest [] [] [⟨name, d1⟩]).pool
        [⟨name, d2⟩]).pool = [(name, d2)] ∧
    (stage_ingest
        (stage_ingest [] [] [⟨name, d1⟩]).index
        (stage_ingest [] [] [⟨name, d1⟩]).pool
        [⟨name, d2⟩]).index = [(d1, name), (d2, name)] := by
  refine ⟨?_, ?_, ?_⟩
  · have h0 : DedupInv c ⟨[], [], []⟩ := by
      refine ⟨?_, ?_, ?_, ?_⟩ <;> simp [countKey, countVal, alLookup]
    have := dedupInv_fold c files ⟨[], [], []⟩ h0
    exact ⟨this.1, this.2.1⟩
  · simp [stage_ingest, ingestStep, alLookup, upsert, hd, Ne.symm hd]
  · simp [stage_ingest, ingestStep, alLookup, upsert, hd, Ne.symm hd]

/-- C2, witness for the amended theorem: two identical-content files
under different names, and the same-name/different-bytes overwrite at
concrete values. -/
theorem c2_dedup_amended_witness :
    (countKey "c" (stage_ingest [] []
        [⟨"x.jpg", "c"⟩, ⟨"y.jpg", "c"⟩]).index ≤ 1 ∧
      countVal "c" (stage_ingest [] []
        [⟨"x.jpg", "c"⟩, ⟨"y.jpg", "c"⟩]).pool ≤ 1) ∧
    (stage_ingest
        (stage_ingest [] [] [⟨"a.jpg", "d1"⟩]).index
        (stage_ingest [] [] [⟨"a.jpg", "d1"⟩]).pool
        [⟨"a.jpg", "d2"⟩]).pool = [("a.jpg", "d2")] ∧
    (stage_ingest
        (stage_ingest [] [] [⟨"a.jpg", "d1"⟩]).index
        (stage_ingest [] [] [⟨"a.jpg", "d1"⟩]).pool
        [⟨"a.jpg", "d2"⟩]).index = [("d1", "a.jpg"), ("d2", "a.jpg")] :=
  c2_dedup_amended [⟨"x.jpg", "c"⟩, ⟨"y.jpg", "c"⟩] "c" "a.jpg" "d1" "d2"
    (by decide)

/-! ## Helper lemmas: the index only grows under ingestion -/

theorem ingest_index_extends :
    ∀ (files : List IncomingFile) (st : IngestState),
      ∃ ext, (files.foldl ingestStep st).index = st.index ++ ext ∧
        (files.foldl ingestStep st).newPaths.length =
          st.newPaths.length + ext.length := by
  intro files
  induction files with
  | nil => intro st; exact ⟨[], by simp⟩
  | cons f fs ih =>
      intro st
      rw [List.foldl_cons]
      by_cases hskip : (alLookup f.digest st.index).isSome
      · have hstep : ingestStep st f = st := by
          rw [ingestStep, if_pos hskip]
        rw [hstep]
        exact ih st
      · have hstep : ingestStep st f =
            ⟨st.index ++ [(f.digest, f.name)],
              upsert f.name f.digest st.pool,
              st.newPaths ++ [f.name]⟩ := by
          rw [ingestStep, if_neg hskip]
        rw [hstep]
        obtain ⟨ext, hidx, hlen⟩ := ih
          ⟨st.index ++ [(f.digest, f.name)],
            upsert f.name f.digest st.pool, st.newPaths ++ [f.name]⟩
        refine ⟨(f.digest, f.name) :: ext, ?_, ?_⟩
        · rw [hidx]; simp
        · rw [hlen]; simp; omega

theorem fold_lookup_isSome (d : String) :
    ∀ (files : List IncomingFile) (st : IngestState),
      (alLookup d st.index).isSome →
      (alLookup d (files.foldl ingestStep st).index).isSome := by
  intro files st h
  obtain ⟨ext, hidx, _⟩ := ingest_index_extends files st
  rw [hidx]
  cases hd : alLookup d st.index with
  | none => rw [hd] at h; cases h
  | some v => rw [alLookup_append_left d v st.index ext hd]; rfl

theorem fold_digest_present :
    ∀ (files : List IncomingFile) (st : IngestState),
      ∀ f ∈ files,
        (alLookup f.digest (files.foldl ingestStep st).index).isSome := by
  intro files
  induction files with
  | nil => intro st f hf; cases hf
  | cons g gs ih =>
      intro st f hf
      rw [List.foldl_cons]
      rcases List.mem_cons.mp hf with h | h
      · subst h
        apply fold_lookup_isSome
        by_cases hskip : (alLookup f.digest st.index).isSome
        · rw [ingestStep, if_pos hskip]; exact hskip
        · have hnone : alLookup f.digest st.index = none := by
            cases hd : alLookup f.digest st.index with
            | none => rfl
            | some v => rw [hd] at hskip; simp at hskip
          rw [ingestStep, if_neg hskip]
          have : alLookup f.digest
              (st.index ++ [(f.digest, f.name)]) = some f.name := by
            rw [alLookup_append_right _ _ _ hnone]
            simp [alLookup]
          simp only [this]
          rfl
      · exact ih (ingestStep st g) f h

theorem fold_skip_all :
    ∀ (files : List IncomingFile) (st : IngestState),
      (∀ f ∈ files, (alLookup f.digest st.index).isSome) →
      files.foldl ingestStep st = st := by
  intro files
  induction files with
  | nil => intro st _; rfl
  | cons f fs ih =>
      intro st h
      rw [List.foldl_cons, ingestStep,
        if_pos (h f (List.mem_cons_self f fs))]
      exact ih st (fun g hg => h g (List.mem_cons_of_mem f hg))

/-! ## Claim theorems: ingest idempotence (C4) and index growth (C10) -/

/-- C4.  Ingest is idempotent: a file whose digest is already in the
index is an exact no-op for the loop state (no copy, no index entry, no
`new_paths` entry); ingesting the same content twice under the same or a
different name yields exactly one pool entry and one index entry; and a
second `stage_ingest` run over the same inputs leaves the index and pool
unchanged and reports zero new files. -/
theorem c4_ingest_idempotent (index₀ pool₀ : List (String × String))
    (files : List IncomingFile) (st : IngestState) (f : IncomingFile)
    (h : (alLookup f.digest st.index).isSome) :
    ingestStep st f = st ∧
    (∀ n1 n2 c, stage_ingest [] [] [⟨n1, c⟩, ⟨n2, c⟩] =
      ⟨[(c, n1)], [(n1, c)], [n1]⟩) ∧
    stage_ingest (stage_ingest index₀ pool₀ files).index
        (stage_ingest index₀ pool₀ files).pool files =
      ⟨(stage_ingest index₀ pool₀ files).index,
        (stage_ingest index₀ pool₀ files).pool, []⟩ := by
  refine ⟨by rw [ingestStep, if_pos h], ?_, ?_⟩
  · intro n1 n2 c
    simp [stage_ingest, ingestStep, alLookup, upsert]
  · have hpresent : ∀ g ∈ files,
        (alLookup g.digest (stage_ingest index₀ pool₀ files).index).isSome :=
      fun g hg => fold_digest_present files ⟨index₀, pool₀, []⟩ g hg
    exact fold_skip_all files _ hpresent

/-- C4, witness: a state whose index already holds the digest of
`b.jpg`, and a repeated run over a two-file input. -/
theorem c4_ingest_idempotent_witness :
    ingestStep ⟨[("d", "b.jpg")], [("b.jpg", "d")], []⟩ ⟨"b.jpg", "d"⟩ =
      ⟨[("d", "b.jpg")], [("b.jpg", "d")], []⟩ ∧
    (∀ n1 n2 c, stage_ingest [] [] [⟨n1, c⟩, ⟨n2, c⟩] =
      ⟨[(c, n1)], [(n1, c)], [n1]⟩) ∧
    stage_ingest
        (stage_ingest [] [] [⟨"a.jpg", "d1"⟩, ⟨"b.jpg", "d2"⟩]).index
        (stage_ingest [] [] [⟨"a.jpg", "d1"⟩, ⟨"b.jpg", "d2"⟩]).pool
        [⟨"a.jpg", "d1"⟩, ⟨"b.jpg", "d2"⟩] =
      ⟨(stage_ingest [] [] [⟨"a.jpg", "d1"⟩, ⟨"b.jpg", "d2"⟩]).index,
        (stage_ingest [] [] [⟨"a.jpg", "d1"⟩, ⟨"b.jpg", "d2"⟩]).pool, []⟩ :=
  c4_ingest_idempotent [] [] [⟨"a.jpg", "d1"⟩, ⟨"b.jpg", "d2"⟩]
    ⟨[("d", "b.jpg")], [("b.jpg", "d")], []⟩ ⟨"b.jpg", "d"⟩ (by decide)

/-- C10.  `stage_ingest` only grows the hash index: every entry of the
loaded index is still present in the written index, the written index has
exactly one entry more per newly ingested file, and no existing
digest→filename mapping is remapped (lookups that succeeded before the
run return the same filename after it). -/
theorem c10_index_monotone (index₀ pool₀ : List (String × String))
    (files : List IncomingFile) (d v : String)
    (h : alLookup d index₀ = some v) :
    (∀ e ∈ index₀, e ∈ (stage_ingest index₀ pool₀ files).index) ∧
    (stage_ingest index₀ pool₀ files).index.length =
      index₀.length + (stage_ingest index₀ pool₀ files).newPaths.length ∧
    alLookup d (stage_ingest index₀ pool₀ files).index = some v := by
  obtain ⟨ext, hidx, hlen⟩ :=
    ingest_index_extends files ⟨index₀, pool₀, []⟩
  have hidx' : (stage_ingest index₀ pool₀ files).index = index₀ ++ ext :=
    hidx
  have hlen' : (stage_ingest index₀ pool₀ files).newPaths.length =
      ext.length := by simpa [stage_ingest] using hlen
  refine ⟨?_, ?_, ?_⟩
  · intro e he
    rw [hidx']
    exact List.mem_append_left ext he
  · rw [hidx', hlen', List.length_append]
  · rw [hidx']
    exact alLookup_append_left d v index₀ ext h

/-- C10, witness: a loaded index with one existing entry and a run that
ingests one genuinely new file. -/
theorem c10_index_monotone_witness :
    (∀ e ∈ [("d0", "old.jpg")],
      e ∈ (stage_ingest [("d0", "old.jpg")] [("old.jpg", "d0")]
        [⟨"new.jpg", "d1"⟩]).index) ∧
    (stage_ingest [("d0", "old.jpg")] [("old.jpg", "d0")]
        [⟨"new.jpg", "d1"⟩]).index.length =
      [("d0", "old.jpg")].length +
        (stage_ingest [("d0", "old.jpg")] [("old.jpg", "d0")]
          [⟨"new.jpg", "d1"⟩]).newPaths.length ∧
    alLookup "d0" (stage_ingest [("d0", "old.jpg")] [("old.jpg", "d0")]
        [⟨"new.jpg", "d1"⟩]).index = some "old.jpg" :=
  c10_index_monotone [("d0", "old.jpg")] [("old.jpg", "d0")]
    [⟨"new.jpg", "d1"⟩] "d0" "old.jpg" (by decide)

/-! ## Helper lemmas about the `stage_select` loop counters -/

theorem selectStep_scanned (conf_low conf_high : ℚ)
    (infer : String → Except String (List Detection))
    (st : SelectState) (img : String) :
    (selectStep conf_low conf_high infer st img).scanned =
      st.scanned + 1 := by
  cases hinf : infer img with
  | error e => simp [selectStep, hinf]
  | ok dets =>
      by_cases hr : (selectImage conf_low conf_high dets).1 =
          Route.to_label <;>
        simp [selectStep, hinf, hr]

theorem selectStep_counts (conf_low conf_high : ℚ)
    (infer : String → Except String (List Detection))
    (st : SelectState) (img : String) :
    (selectStep conf_low conf_high infer st img).to_label +
      (selectStep conf_low conf_high infer st img).autolabeled +
      (selectStep conf_low conf_high infer st img).errors =
    st.to_label + st.autolabeled + st.errors + 1 := by
  cases hinf : infer img with
  | error e =>
      simp [selectStep, hinf]
      omega
  | ok dets =>
      by_cases hr : (selectImage conf_low conf_high dets).1 =
          Route.to_label <;>
        · simp [selectStep, hinf, hr]
          omega

theorem fold_select_counts (conf_low conf_high : ℚ)
    (infer : String → Except String (List Detection)) :
    ∀ (imgs : List String) (st : SelectState),
      ((imgs.foldl (selectStep conf_low conf_high infer) st).scanned =
        st.scanned + imgs.length) ∧
      ((imgs.foldl (selectStep conf_low conf_high infer) st).to_label +
        (imgs.foldl (selectStep conf_low conf_high infer) st).autolabeled +
        (imgs.foldl (selectStep conf_low conf_high infer) st).errors =
        st.to_label + st.autolabeled + st.errors + imgs.length) := by
  intro imgs
  induction imgs with
  | nil => intro st; simp
  | cons i t ih =>
      intro st
      rw [List.foldl_cons]
      obtain ⟨ih1, ih2⟩ := ih (selectStep conf_low conf_high infer st i)
      refine ⟨?_, ?_⟩
      · rw [ih1, selectStep_scanned]
        simp [List.length_cons]
        omega
      · rw [ih2]
        have := selectStep_counts conf_low conf_high infer st i
        simp [List.length_cons]
        omega

/-! ## Claim theorems: counter partition (C9) -/

/-- C9.  After any run of `stage_select`, every scanned image is counted
in exactly one outcome category:
`scanned = to_label + autolabeled + errors`. -/
theorem c9_counter_invariant (conf_low conf_high : ℚ)
    (infer : String → Except String (List Detection))
    (unlabeled : List String) :
    (stage_select conf_low conf_high infer unlabeled).scanned =
      (stage_select conf_low conf_high infer unlabeled).to_label +
      (stage_select conf_low conf_high infer unlabeled).autolabeled +
      (stage_select conf_low conf_high infer unlabeled).errors := by
  obtain ⟨h1, h2⟩ := fold_select_counts conf_low conf_high infer unlabeled
    ⟨0, 0, 0, 0, [], unlabeled, [], []⟩
  simp only [stage_select]
  simp at h1 h2
  omega

/-! ## Helper lemmas for error isolation in `stage_select` -/

theorem selectStep_err (conf_low conf_high : ℚ)
    (infer : String → Except String (List Detection))
    (st : SelectState) (img e : String)
    (h : infer img = Except.error e) :
    selectStep conf_low conf_high infer st img =
      { st with scanned := st.scanned + 1, errors := st.errors + 1,
                rows := st.rows ++ [⟨img, Route.error, Reason.err e⟩] } := by
  simp [selectStep, h]

theorem selectStep_ok_effects (conf_low conf_high : ℚ)
    (infer : String → Except String (List Detection))
    (st : SelectState) (img : String)
    (h : inferOk (infer img) = true) :
    (selectStep conf_low conf_high infer st img).errors = st.errors ∧
    (∃ r : Row, r.route ≠ Route.error ∧ r.file = img ∧
      (selectStep conf_low conf_high infer st img).rows =
        st.rows ++ [r]) ∧
    (selectStep conf_low conf_high infer st img).to_label +
      (selectStep conf_low conf_high infer st img).autolabeled =
      st.to_label + st.autolabeled + 1 ∧
    (selectStep conf_low conf_high infer st img).remaining =
      st.remaining.erase img ∧
    (((selectStep conf_low conf_high infer st img).toLabelPool =
        st.toLabelPool ++ [img] ∧
      (selectStep conf_low conf_high infer st img).autoPool =
        st.autoPool) ∨
     ((selectStep conf_low conf_high infer st img).autoPool =
        st.autoPool ++ [img] ∧
      (selectStep conf_low conf_high infer st img).toLabelPool =
        st.toLabelPool)) := by
  cases hinf : infer img with
  | error e => rw [hinf] at h; simp [inferOk] at h
  | ok dets =>
      by_cases hr : (selectImage conf_low conf_high dets).1 =
          Route.to_label
      · refine ⟨by simp [selectStep, hinf, hr],
          ⟨⟨img, Route.to_label,
            (selectImage conf_low conf_high dets).2⟩, by simp, by simp,
            by simp [selectStep, hinf, hr]⟩,
          by simp [selectStep, hinf, hr]; omega,
          by simp [selectStep, hinf, hr],
          Or.inl ⟨by simp [selectStep, hinf, hr],
            by simp [selectStep, hinf, hr]⟩⟩
      · refine ⟨by simp [selectStep, hinf, hr],
          ⟨⟨img, Route.autolabeled,
            (selectImage conf_low conf_high dets).2⟩, by simp, by simp,
            by simp [selectStep, hinf, hr]⟩,
          by simp [selectStep, hinf, hr]; omega,
          by simp [selectStep, hinf, hr],
          Or.inr ⟨by simp [selectStep, hinf, hr],
            by simp [selectStep, hinf, hr]⟩⟩

theorem selectStep_shape (conf_low conf_high : ℚ)
    (infer : String → Except String (List Detection))
    (st : SelectState) (img : String) :
    ((selectStep conf_low conf_high infer st img).toLabelPool =
        st.toLabelPool ∨
      (selectStep conf_low conf_high infer st img).toLabelPool =
        st.toLabelPool ++ [img]) ∧
    ((selectStep conf_low conf_high infer st img).autoPool = st.autoPool ∨
      (selectStep conf_low conf_high infer st img).autoPool =
        st.autoPool ++ [img]) ∧
    ((selectStep conf_low conf_high infer st img).remaining =
        st.remaining ∨
      (selectStep conf_low conf_high infer st img).remaining =
        st.remaining.erase img) := by
  cases hinf : infer img with
  | error e => simp [selectStep, hinf]
  | ok dets =>
      by_cases hr : (selectImage conf_low conf_high dets).1 =
          Route.to_label <;>
        simp [selectStep, hinf, hr]

theorem fold_pools_ext (conf_low conf_high : ℚ)
    (infer : String → Except String (List Detection)) :
    ∀ (imgs : List String) (st : SelectState),
      ∃ extT extA,
        (imgs.foldl (selectStep conf_low conf_high infer) st).toLabelPool =
          st.toLabelPool ++ extT ∧
        (imgs.foldl (selectStep conf_low conf_high infer) st).autoPool =
          st.autoPool ++ extA ∧
        (∀ x ∈ extT, x ∈ imgs) ∧ (∀ x ∈ extA, x ∈ imgs) := by
  intro imgs
  induction imgs with
  | nil =>
      intro st
      exact ⟨[], [], by simp, by simp, by simp, by simp⟩
  | cons i t ih =>
      intro st
      rw [List.foldl_cons]
      obtain ⟨extT, extA, h1, h2, h3, h4⟩ :=
        ih (selectStep conf_low conf_high infer st i)
      obtain ⟨hT, hA, _⟩ := selectStep_shape conf_low conf_high infer st i
      rcases hT with hT | hT <;> rcases hA with hA | hA
      · exact ⟨extT, extA, by rw [h1, hT], by rw [h2, hA],
          fun x hx => List.mem_cons_of_mem i (h3 x hx),
          fun x hx => List.mem_cons_of_mem i (h4 x hx)⟩
      · refine ⟨extT, i :: extA, by rw [h1, hT], ?_, ?_, ?_⟩
        · rw [h2, hA]; simp
        · exact fun x hx => List.mem_cons_of_mem i (h3 x hx)
        · intro x hx
          rcases List.mem_cons.mp hx with h | h
          · subst h; exact List.mem_cons_self x t
          · exact List.mem_cons_of_mem i (h4 x h)
      · refine ⟨i :: extT, extA, ?_, by rw [h2, hA], ?_, ?_⟩
        · rw [h1, hT]; simp
        · intro x hx
          rcases List.mem_cons.mp hx with h | h
          · subst h; exact List.mem_cons_self x t
          · exact List.mem_cons_of_mem i (h3 x h)
        · exact fun x hx => List.mem_cons_of_mem i (h4 x hx)
      · refine ⟨i :: extT, i :: extA, ?_, ?_, ?_, ?_⟩
        · rw [h1, hT]; simp
        · rw [h2, hA]; simp
        · intro x hx
          rcases List.mem_cons.mp hx with h | h
          · subst h; exact List.mem_cons_self x t
          · exact List.mem_cons_of_mem i (h3 x h)
        · intro x hx
          rcases List.mem_cons.mp hx with h | h
          · subst h; exact List.mem_cons_self x t
          · exact List.mem_cons_of_mem i (h4 x h)

theorem fold_remaining_not_mem (conf_low conf_high : ℚ)
    (infer : String → Except String (List Detection)) :
    ∀ (imgs : List String) (st : SelectState) (x : String),
      x ∉ st.remaining →
      x ∉ (imgs.foldl (selectStep conf_low conf_high infer) st).remaining := by
  intro imgs
  induction imgs with
  | nil => intro st x hx; exact hx
  | cons i t ih =>
      intro st x hx
      rw [List.foldl_cons]
      apply ih
      obtain ⟨_, _, hR⟩ := selectStep_shape conf_low conf_high infer st i
      rcases hR with hR | hR
      · rw [hR]; exact hx
      · rw [hR]
        intro hmem
        exact hx (List.erase_subset _ _ hmem)

theorem fold_remaining_keep (conf_low conf_high : ℚ)
    (infer : String → Except String (List Detection)) :
    ∀ (imgs : List String) (st : SelectState) (x : String),
      x ∈ st.remaining → (∀ i ∈ imgs, i ≠ x) →
      x ∈ (imgs.foldl (selectStep conf_low conf_high infer) st).remaining := by
  intro imgs
  induction imgs with
  | nil => intro st x hx _; exact hx
  | cons i t ih =>
      intro st x hx hne
      rw [List.foldl_cons]
      apply ih
      · obtain ⟨_, _, hR⟩ := selectStep_shape conf_low conf_high infer st i
        rcases hR with hR | hR
        · rw [hR]; exact hx
        · rw [hR]
          exact (List.mem_erase_of_ne
            (Ne.symm (hne i (List.mem_cons_self i t)))).mpr hx
      · exact fun j hj => hne j (List.mem_cons_of_mem i hj)

theorem fold_remaining_nodup (conf_low conf_high : ℚ)
    (infer : String → Except String (List Detection)) :
    ∀ (imgs : List String) (st : SelectState),
      st.remaining.Nodup →
      (imgs.foldl (selectStep conf_low conf_high infer) st).remaining.Nodup := by
  intro imgs
  induction imgs with
  | nil => intro st h; exact h
  | cons i t ih =>
      intro st h
      rw [List.foldl_cons]
      apply ih
      obtain ⟨_, _, hR⟩ := selectStep_shape conf_low conf_high infer st i
      rcases hR with hR | hR
      · rw [hR]; exact h
      · rw [hR]; exact h.erase i

theorem okfold_errors (conf_low conf_high : ℚ)
    (infer : String → Except String (List Detection)) :
    ∀ (imgs : List String) (st : SelectState),
      (∀ i ∈ imgs, inferOk (infer i) = true) →
      (imgs.foldl (selectStep conf_low conf_high infer) st).errors =
        st.errors := by
  intro imgs
  induction imgs with
  | nil => intro st _; rfl
  | cons i t ih =>
      intro st h
      rw [List.foldl_cons]
      rw [ih (selectStep conf_low conf_high infer st i)
        (fun j hj => h j (List.mem_cons_of_mem i hj))]
      exact (selectStep_ok_effects conf_low conf_high infer st i
        (h i (List.mem_cons_self i t))).1

theorem okfold_routed (conf_low conf_high : ℚ)
    (infer : String → Except String (List Detection)) :
    ∀ (imgs : List String) (st : SelectState),
      (∀ i ∈ imgs, inferOk (infer i) = true) →
      (imgs.foldl (selectStep conf_low conf_high infer) st).to_label +
        (imgs.foldl (selectStep conf_low conf_high infer) st).autolabeled =
        st.to_label + st.autolabeled + imgs.length := by
  intro imgs
  induction imgs with
  | nil => intro st _; simp
  | cons i t ih =>
      intro st h
      rw [List.foldl_cons]
      rw [ih (selectStep conf_low conf_high infer st i)
        (fun j hj => h j (List.mem_cons_of_mem i hj))]
      have := (selectStep_ok_effects conf_low conf_high infer st i
        (h i (List.mem_cons_self i t))).2.2.1
      simp only [List.length_cons]
      omega

theorem okfold_rows (conf_low conf_high : ℚ)
    (infer : String → Except String (List Detection)) :
    ∀ (imgs : List String) (st : SelectState),
      (∀ i ∈ imgs, inferOk (infer i) = true) →
      ∃ ext, (imgs.foldl (selectStep conf_low conf_high infer) st).rows =
          st.rows ++ ext ∧ ∀ r ∈ ext, r.route ≠ Route.error := by
  intro imgs
  induction imgs with
  | nil => intro st _; exact ⟨[], by simp, by simp⟩
  | cons i t ih =>
      intro st h
      rw [List.foldl_cons]
      obtain ⟨ext, hext, hok⟩ :=
        ih (selectStep conf_low conf_high infer st i)
          (fun j hj => h j (List.mem_cons_of_mem i hj))
      obtain ⟨_, ⟨r, hr, _, hrows⟩, _⟩ :=
        selectStep_ok_effects conf_low conf_high infer st i
          (h i (List.mem_cons_self i t))
      refine ⟨r :: ext, ?_, ?_⟩
      · rw [hext, hrows]; simp
      · intro q hq
        rcases List.mem_cons.mp hq with hqq | hqq
        · subst hqq; exact hr
        · exact hok q hqq

theorem okfold_removed (conf_low conf_high : ℚ)
    (infer : String → Except String (List Detection)) :
    ∀ (imgs : List String) (st : SelectState) (x : String),
      (∀ i ∈ imgs, inferOk (infer i) = true) → st.remaining.Nodup →
      x ∈ imgs →
      x ∉ (imgs.foldl (selectStep conf_low conf_high infer) st).remaining := by
  intro imgs
  induction imgs with
  | nil => intro st x _ _ hx; cases hx
  | cons i t ih =>
      intro st x h hnd hx
      rw [List.foldl_cons]
      have hrem := (selectStep_ok_effects conf_low conf_high infer st i
        (h i (List.mem_cons_self i t))).2.2.2.1
      by_cases hix : i = x
      · subst hix
        apply fold_remaining_not_mem
        rw [hrem]
        exact hnd.not_mem_erase
      · rcases List.mem_cons.mp hx with hxx | hxx
        · exact absurd hxx.symm hix
        · apply ih (selectStep conf_low conf_high infer st i) x
            (fun j hj => h j (List.mem_cons_of_mem i hj)) ?_ hxx
          rw [hrem]
          exact hnd.erase i

theorem okfold_moved (conf_low conf_high : ℚ)
    (infer : String → Except String (List Detection)) :
    ∀ (imgs : List String) (st : SelectState) (x : String),
      (∀ i ∈ imgs, inferOk (infer i) = true) → x ∈ imgs →
      (x ∈ (imgs.foldl (selectStep conf_low conf_high infer)
          st).toLabelPool ∨
        x ∈ (imgs.foldl (selectStep conf_low conf_high infer)
          st).autoPool) := by
  intro imgs
  induction imgs with
  | nil => intro st x _ hx; cases hx
  | cons i t ih =>
      intro st x h hx
      rw [List.foldl_cons]
      by_cases hix : i = x
      · subst hix
        have hpool := (selectStep_ok_effects conf_low conf_high infer st i
          (h i (List.mem_cons_self i t))).2.2.2.2
        obtain ⟨extT, extA, h1, h2, _, _⟩ := fold_pools_ext conf_low
          conf_high infer t (selectStep conf_low conf_high infer st i)
        rcases hpool with ⟨hp, _⟩ | ⟨hp, _⟩
        · left
          rw [h1, hp]
          exact List.mem_append_left extT (List.mem_append_right _
            (List.mem_singleton.mpr rfl))
        · right
          rw [h2, hp]
          exact List.mem_append_left extA (List.mem_append_right _
            (List.mem_singleton.mpr rfl))
      · rcases List.mem_cons.mp hx with hxx | hxx
        · exact absurd hxx.symm hix
        · exact ih (selectStep conf_low conf_high infer st i) x
            (fun j hj => h j (List.mem_cons_of_mem i hj)) hxx

theorem filter_isErrorRow_nil (l : List Row)
    (h : ∀ r ∈ l, r.route ≠ Route.error) : l.filter isErrorRow = [] := by
  apply List.filter_eq_nil_iff.mpr
  intro r hr
  have := h r hr
  cases hroute : r.route <;> simp [isErrorRow, hroute]
  exact this hroute

/-! ## Claim theorems: error isolation (C5) -/

/-- C5.  If, in a batch of distinct images, inference raises for exactly
one image `bad` (with exception text `msg`) and succeeds for every other,
then `stage_select` still completes with: exactly one error counted, the
other `N-1` images routed (counted under `to_label`/`autolabeled` and
placed in one of the two destination pools, no longer in the unlabeled
pool), exactly one error log row — carrying `msg` — produced, all `N`
images scanned, and `bad` left untouched in the unlabeled pool (neither
moved to a destination pool nor deleted). -/
theorem c5_error_isolation (conf_low conf_high : ℚ)
    (infer : String → Except String (List Detection))
    (imgs : List String) (bad msg : String)
    (hmem : bad ∈ imgs) (hnd : imgs.Nodup)
    (herr : infer bad = Except.error msg)
    (hok : ∀ i ∈ imgs, i ≠ bad → inferOk (infer i) = true) :
    (stage_select conf_low conf_high infer imgs).errors = 1 ∧
    (stage_select conf_low conf_high infer imgs).scanned = imgs.length ∧
    (stage_select conf_low conf_high infer imgs).to_label +
      (stage_select conf_low conf_high infer imgs).autolabeled =
      imgs.length - 1 ∧
    (stage_select conf_low conf_high infer imgs).rows.filter isErrorRow =
      [⟨bad, Route.error, Reason.err msg⟩] ∧
    bad ∈ (stage_select conf_low conf_high infer imgs).remaining ∧
    bad ∉ (stage_select conf_low conf_high infer imgs).toLabelPool ∧
    bad ∉ (stage_select conf_low conf_high infer imgs).autoPool ∧
    (∀ i ∈ imgs, i ≠ bad →
      i ∉ (stage_select conf_low conf_high infer imgs).remaining ∧
      (i ∈ (stage_select conf_low conf_high infer imgs).toLabelPool ∨
        i ∈ (stage_select conf_low conf_high infer imgs).autoPool)) := by
  obtain ⟨pre, post, himgs⟩ := List.append_of_mem hmem
  subst himgs
  obtain ⟨hndpre, hndcons, hdisj⟩ := List.nodup_append.mp hnd
  have hbadpre : bad ∉ pre := fun h => hdisj h (List.mem_cons_self bad post)
  have hbadpost : bad ∉ post := (List.nodup_cons.mp hndcons).1
  have hokpre : ∀ i ∈ pre, inferOk (infer i) = true := by
    intro i hi
    refine hok i (List.mem_append_left _ hi) ?_
    intro heq; subst heq; exact hbadpre hi
  have hokpost : ∀ i ∈ post, inferOk (infer i) = true := by
    intro i hi
    refine hok i (List.mem_append_right _ (List.mem_cons_of_mem bad hi)) ?_
    intro heq; subst heq; exact hbadpost hi
  set st0 : SelectState :=
    ⟨0, 0, 0, 0, [], pre ++ bad :: post, [], []⟩ with hst0
  set stPre := pre.foldl (selectStep conf_low conf_high infer) st0
    with hstPre
  set stBad := selectStep conf_low conf_high infer stPre bad with hstBad
  have hfin : stage_select conf_low conf_high infer (pre ++ bad :: post) =
      post.foldl (selectStep conf_low conf_high infer) stBad := by
    rw [stage_select, List.foldl_append, List.foldl_cons]
  have hbadrec : stBad =
      { stPre with scanned := stPre.scanned + 1,
                   errors := stPre.errors + 1,
                   rows := stPre.rows ++
                     [⟨bad, Route.error, Reason.err msg⟩] } :=
    selectStep_err conf_low conf_high infer stPre bad msg herr
  have hpreerr : stPre.errors = 0 :=
    okfold_errors conf_low conf_high infer pre st0 hokpre
  have hst0rem : st0.remaining = pre ++ bad :: post := rfl
  -- errors = 1
  have herrcount :
      (post.foldl (selectStep conf_low conf_high infer) stBad).errors = 1 := by
    rw [okfold_errors conf_low conf_high infer post stBad hokpost,
      hbadrec]
    simp [hpreerr]
  -- scanned = length
  have hscanned :
      (stage_select conf_low conf_high infer (pre ++ bad :: post)).scanned =
        (pre ++ bad :: post).length := by
    have := (fold_select_counts conf_low conf_high infer
      (pre ++ bad :: post) st0).1
    rw [stage_select]
    rw [this]
    simp [hst0]
  -- routed counts
  have hpreroute : stPre.to_label + stPre.autolabeled = pre.length := by
    have := okfold_routed conf_low conf_high infer pre st0 hokpre
    simpa using this
  have hroute :
      (post.foldl (selectStep conf_low conf_high infer) stBad).to_label +
        (post.foldl (selectStep conf_low conf_high infer)
          stBad).autolabeled = (pre ++ bad :: post).length - 1 := by
    have hp := okfold_routed conf_low conf_high infer post stBad hokpost
    have hbtl : stBad.to_label = stPre.to_label := by rw [hbadrec]
    have hbau : stBad.autolabeled = stPre.autolabeled := by rw [hbadrec]
    rw [hp, hbtl, hbau]
    simp only [List.length_append, List.length_cons]
    omega
  -- the error rows
  have hrows :
      (post.foldl (selectStep conf_low conf_high infer)
        stBad).rows.filter isErrorRow =
        [⟨bad, Route.error, Reason.err msg⟩] := by
    obtain ⟨ext1, hext1, hok1⟩ :=
      okfold_rows conf_low conf_high infer pre st0 hokpre
    obtain ⟨ext2, hext2, hok2⟩ :=
      okfold_rows conf_low conf_high infer post stBad hokpost
    rw [hext2, hbadrec]
    simp only [List.filter_append]
    rw [filter_isErrorRow_nil ext2 hok2]
    have hrows1 : stPre.rows = ext1 := by
      rw [hext1]; rfl
    rw [hrows1, filter_isErrorRow_nil ext1 hok1]
    simp [isErrorRow]
  -- bad remains, unmoved
  have hbadrem :
      bad ∈ (post.foldl (selectStep conf_low conf_high infer)
        stBad).remaining := by
    apply fold_remaining_keep
    · have : bad ∈ stPre.remaining := by
        apply fold_remaining_keep
        · rw [hst0rem]
          exact List.mem_append_right _ (List.mem_cons_self bad post)
        · intro i hi heq; subst heq; exact hbadpre hi
      have hbr : stBad.remaining = stPre.remaining := by rw [hbadrec]
      rw [hbr]; exact this
    · intro i hi heq; subst heq; exact hbadpost hi
  obtain ⟨extT1, extA1, hT1, hA1, hTm1, hAm1⟩ :=
    fold_pools_ext conf_low conf_high infer pre st0
  obtain ⟨extT2, extA2, hT2, hA2, hTm2, hAm2⟩ :=
    fold_pools_ext conf_low conf_high infer post stBad
  have hbadT :
      bad ∉ (post.foldl (selectStep conf_low conf_high infer)
        stBad).toLabelPool := by
    rw [hT2]
    intro hb
    rcases List.mem_append.mp hb with hb | hb
    · have hbb : stBad.toLabelPool = stPre.toLabelPool := by rw [hbadrec]
      rw [hbb, hT1] at hb
      rcases List.mem_append.mp hb with hb | hb
      · simp at hb
      · exact hbadpre (hTm1 bad hb)
    · exact hbadpost (hTm2 bad hb)
  have hbadA :
      bad ∉ (post.foldl (selectStep conf_low conf_high infer)
        stBad).autoPool := by
    rw [hA2]
    intro hb
    rcases List.mem_append.mp hb with hb | hb
    · have hbb : stBad.autoPool = stPre.autoPool := by rw [hbadrec]
      rw [hbb, hA1] at hb
      rcases List.mem_append.mp hb with hb | hb
      · simp at hb
      · exact hbadpre (hAm1 bad hb)
    · exact hbadpost (hAm2 bad hb)
  -- other images: removed from unlabeled pool and moved to a destination
  have hothers : ∀ i ∈ pre ++ bad :: post, i ≠ bad →
      i ∉ (post.foldl (selectStep conf_low conf_high infer)
        stBad).remaining ∧
      (i ∈ (post.foldl (selectStep conf_low conf_high infer)
          stBad).toLabelPool ∨
        i ∈ (post.foldl (selectStep conf_low conf_high infer)
          stBad).autoPool) := by
    intro i hi hne
    have hndrem0 : st0.remaining.Nodup := hnd
    have hbr : stBad.remaining = stPre.remaining := by rw [hbadrec]
    have hndremPre : stPre.remaining.Nodup :=
      fold_remaining_nodup conf_low conf_high infer pre st0 hndrem0
    rcases List.mem_append.mp hi with hip | hip
    · constructor
      · apply fold_remaining_not_mem
        rw [hbr]
        exact okfold_removed conf_low conf_high infer pre st0 i hokpre
          hndrem0 hip
      · have hmov := okfold_moved conf_low conf_high infer pre st0 i
          hokpre hip
        have hbT : stBad.toLabelPool = stPre.toLabelPool := by
          rw [hbadrec]
        have hbA : stBad.autoPool = stPre.autoPool := by rw [hbadrec]
        rcases hmov with hm | hm
        · left
          rw [hT2, hbT]
          exact List.mem_append_left _ hm
        · right
          rw [hA2, hbA]
          exact List.mem_append_left _ hm
    · rcases List.mem_cons.mp hip with hib | hip
      · exact absurd hib hne
      · constructor
        · apply okfold_removed conf_low conf_high infer post stBad i
            hokpost ?_ hip
          rw [hbr]; exact hndremPre
        · exact okfold_moved conf_low conf_high infer post stBad i
            hokpost hip
  rw [hfin]
  exact ⟨herrcount, by rw [← hfin]; exact hscanned, hroute, hrows,
    hbadrem, hbadT, hbadA, hothers⟩

/-- C5, witness: batch `[a.jpg, b.jpg, c.jpg]` with `inferW` raising
exactly on `b.jpg`. -/
theorem c5_error_isolation_witness :
    (stage_select (3/20) (9/20) inferW
      ["a.jpg", "b.jpg", "c.jpg"]).errors = 1 ∧
    (stage_select (3/20) (9/20) inferW
      ["a.jpg", "b.jpg", "c.jpg"]).scanned =
      (["a.jpg", "b.jpg", "c.jpg"] : List String).length ∧
    (stage_select (3/20) (9/20) inferW
        ["a.jpg", "b.jpg", "c.jpg"]).to_label +
      (stage_select (3/20) (9/20) inferW
        ["a.jpg", "b.jpg", "c.jpg"]).autolabeled =
      (["a.jpg", "b.jpg", "c.jpg"] : List String).length - 1 ∧
    (stage_select (3/20) (9/20) inferW
        ["a.jpg", "b.jpg", "c.jpg"]).rows.filter isErrorRow =
      [⟨"b.jpg", Route.error, Reason.err "boom"⟩] ∧
    "b.jpg" ∈ (stage_select (3/20) (9/20) inferW
      ["a.jpg", "b.jpg", "c.jpg"]).remaining ∧
    "b.jpg" ∉ (stage_select (3/20) (9/20) inferW
      ["a.jpg", "b.jpg", "c.jpg"]).toLabelPool ∧
    "b.jpg" ∉ (stage_select (3/20) (9/20) inferW
      ["a.jpg", "b.jpg", "c.jpg"]).autoPool ∧
    (∀ i ∈ (["a.jpg", "b.jpg", "c.jpg"] : List String), i ≠ "b.jpg" →
      i ∉ (stage_select (3/20) (9/20) inferW
        ["a.jpg", "b.jpg", "c.jpg"]).remaining ∧
      (i ∈ (stage_select (3/20) (9/20) inferW
          ["a.jpg", "b.jpg", "c.jpg"]).toLabelPool ∨
        i ∈ (stage_select (3/20) (9/20) inferW
          ["a.jpg", "b.jpg", "c.jpg"]).autoPool)) :=
  c5_error_isolation (3/20) (9/20) inferW ["a.jpg", "b.jpg", "c.jpg"]
    "b.jpg" "boom" (by decide) (by decide) (by simp [inferW]) (by decide)

/-! ## Claim theorems: dataset split completeness (C3) -/

/-- C3.  For `val_split ∈ [0,1]` and any permutation-like `shuffle`
(length- and membership-preserving, as `random.shuffle` is): on an empty
merged pool `stage_prep` returns `(0, 0)`; on a merged pool of size
`n > 0` it returns counts with `train_count + val_count = n` and
`val_count = max 1 ⌊n * val_split⌋`; and every item written to either
split is an image with a matching annotation file (images lacking one
were excluded by the gather filter). -/
theorem c3_split_completeness (labeled autolabeled : List PrepItem)
    (shuffle : List PrepItem → List PrepItem) (val_split : ℚ)
    (h0 : 0 ≤ val_split) (h1 : val_split ≤ 1)
    (hlen : ∀ l, (shuffle l).length = l.length)
    (hmem : ∀ l x, x ∈ shuffle l → x ∈ l) :
    ((gather labeled ++ gather autolabeled).length = 0 →
      (stage_prep labeled autolabeled shuffle val_split).train_count = 0 ∧
      (stage_prep labeled autolabeled shuffle val_split).val_count = 0) ∧
    (0 < (gather labeled ++ gather autolabeled).length →
      (stage_prep labeled autolabeled shuffle val_split).train_count +
        (stage_prep labeled autolabeled shuffle val_split).val_count =
        (gather labeled ++ gather autolabeled).length ∧
      (stage_prep labeled autolabeled shuffle val_split).val_count =
        max 1 (Int.floor
          (((gather labeled ++ gather autolabeled).length : ℚ) *
            val_split))) ∧
    (∀ i ∈ (stage_prep labeled autolabeled shuffle val_split).valItems ++
        (stage_prep labeled autolabeled shuffle val_split).trainItems,
      i.isImage = true ∧ i.hasTxt = true) := by
  have hslen : (shuffle (gather labeled ++ gather autolabeled)).length =
      (gather labeled ++ gather autolabeled).length :=
    hlen (gather labeled ++ gather autolabeled)
  have hq0 : (0:ℚ) ≤
      ((gather labeled ++ gather autolabeled).length : ℚ) * val_split :=
    mul_nonneg (Nat.cast_nonneg _) h0
  have hpyInt : pyInt
      (((gather labeled ++ gather autolabeled).length : ℚ) * val_split) =
      Int.floor
        (((gather labeled ++ gather autolabeled).length : ℚ) *
          val_split) := by
    rw [pyInt, if_neg (not_lt.mpr hq0)]
  refine ⟨?_, ?_, ?_⟩
  · intro hzero
    have : (shuffle (gather labeled ++ gather autolabeled)).length = 0 := by
      rw [hslen, hzero]
    simp only [stage_prep, this]
    simp
  · intro hpos
    have hfloor_le : Int.floor
        (((gather labeled ++ gather autolabeled).length : ℚ) *
          val_split) ≤
        ((gather labeled ++ gather autolabeled).length : ℤ) := by
      have hle : ((gather labeled ++ gather autolabeled).length : ℚ) *
          val_split ≤
          ((gather labeled ++ gather autolabeled).length : ℚ) :=
        mul_le_of_le_one_right (Nat.cast_nonneg _) h1
      have h2 := Int.floor_le_floor hle
      rwa [Int.floor_natCast] at h2
    have hne : (shuffle (gather labeled ++ gather autolabeled)).length ≠
        0 := by
      rw [hslen]; omega
    have hnval_le : max 1 (Int.floor
        (((gather labeled ++ gather autolabeled).length : ℚ) *
          val_split)) ≤
        ((gather labeled ++ gather autolabeled).length : ℤ) := by
      have h1n : (1:ℤ) ≤
          ((gather labeled ++ gather autolabeled).length : ℤ) := by
        exact_mod_cast hpos
      exact max_le h1n hfloor_le
    have hne2 : (gather labeled ++ gather autolabeled).length ≠ 0 := by
      omega
    simp only [stage_prep, hslen, hpyInt, if_pos hne2]
    constructor
    · have hsub : (0:ℤ) ≤
          ((gather labeled ++ gather autolabeled).length : ℤ) -
            max 1 (Int.floor
              (((gather labeled ++ gather autolabeled).length : ℚ) *
                val_split)) := by omega
      rw [max_eq_right hsub]
      ring
    · trivial
  · intro i hi
    have hi' : i ∈ shuffle (gather labeled ++ gather autolabeled) := by
      rcases List.mem_append.mp hi with h | h
      · have := List.take_subset _ _ (by
          simpa [stage_prep, hslen, hpyInt] using h)
        exact this
      · have := List.drop_subset _ _ (by
          simpa [stage_prep, hslen, hpyInt] using h)
        exact this
    have hi'' : i ∈ gather labeled ++ gather autolabeled :=
      hmem _ i hi'
    have hfil : (i.isImage && i.hasTxt) = true := by
      rcases List.mem_append.mp hi'' with h | h
      · exact (List.mem_filter.mp h).2
      · exact (List.mem_filter.mp h).2
    exact ⟨(Bool.and_eq_true _ _ |>.mp hfil).1,
      (Bool.and_eq_true _ _ |>.mp hfil).2⟩

/-- C3, witness: one usable pair in the labeled pool, one image without
annotation (excluded), one non-image (excluded), identity shuffle,
`val_split = 0.15`. -/
theorem c3_split_completeness_witness :
    ((gather [⟨"a.jpg", true, true⟩, ⟨"b.jpg", true, false⟩] ++
        gather [⟨"c.txt", false, true⟩]).length = 0 →
      (stage_prep [⟨"a.jpg", true, true⟩, ⟨"b.jpg", true, false⟩]
        [⟨"c.txt", false, true⟩] id (3/20)).train_count = 0 ∧
      (stage_prep [⟨"a.jpg", true, true⟩, ⟨"b.jpg", true, false⟩]
        [⟨"c.txt", false, true⟩] id (3/20)).val_count = 0) ∧
    (0 < (gather [⟨"a.jpg", true, true⟩, ⟨"b.jpg", true, false⟩] ++
        gather [⟨"c.txt", false, true⟩]).length →
      (stage_prep [⟨"a.jpg", true, true⟩, ⟨"b.jpg", true, false⟩]
          [⟨"c.txt", false, true⟩] id (3/20)).train_count +
        (stage_prep [⟨"a.jpg", true, true⟩, ⟨"b.jpg", true, false⟩]
          [⟨"c.txt", false, true⟩] id (3/20)).val_count =
        (gather [⟨"a.jpg", true, true⟩, ⟨"b.jpg", true, false⟩] ++
          gather [⟨"c.txt", false, true⟩]).length ∧
      (stage_prep [⟨"a.jpg", true, true⟩, ⟨"b.jpg", true, false⟩]
          [⟨"c.txt", false, true⟩] id (3/20)).val_count =
        max 1 (Int.floor
          (((gather [⟨"a.jpg", true, true⟩, ⟨"b.jpg", true, false⟩] ++
            gather [⟨"c.txt", false, true⟩]).length : ℚ) * (3/20)))) ∧
    (∀ i ∈ (stage_prep [⟨"a.jpg", true, true⟩, ⟨"b.jpg", true, false⟩]
        [⟨"c.txt", false, true⟩] id (3/20)).valItems ++
        (stage_prep [⟨"a.jpg", true, true⟩, ⟨"b.jpg", true, false⟩]
          [⟨"c.txt", false, true⟩] id (3/20)).trainItems,
      i.isImage = true ∧ i.hasTxt = true) :=
  c3_split_completeness [⟨"a.jpg", true, true⟩, ⟨"b.jpg", true, false⟩]
    [⟨"c.txt", false, true⟩] id (3/20) (by norm_num) (by norm_num)
    (fun _ => rfl) (fun _ x h => h)

end ActiveLearning
